import Mathlib

/-!
# Verification of the Bitcoin utility library (`src/main.py`)

Shallow embedding of the functions of `main.py` into Lean, together with
theorems settling the specification claims about them.

Modelling conventions:
* Python arbitrary-precision `int` is `Int` (or `Nat` where the domain is
  naturally non-negative, e.g. block heights);
* Python numbers flowing through `/`-division and float literals are `ℚ`
  (exact rational arithmetic standing for the numeric values);
* Python strings are `String`, or `List Char` where character-level
  reasoning is needed;
* a Python `dict` result is a finite partial map `key → Option value`;
* code that can raise an exception is embedded returning `Option`,
  `none` standing for the raised exception / empty sentinel;
* the randomness source of `random.choices` is an explicit oracle
  argument choosing, for each position, an index into the population.
-/

/-- `BTC_TO_SATS = 100000000` from `main.py`. -/
def BTC_TO_SATS : Nat := 100000000

/-- `halving_interval = 210000` (local constant of `halving_schedule`). -/
def halving_interval : Nat := 210000

/-- `base_reward = 50 * BTC_TO_SATS` (local constant of `halving_schedule`). -/
def base_reward : Nat := 50 * BTC_TO_SATS

/-- One iteration of the loop of `halving_schedule`: insert
`block ↦ base_reward // 2 ** (block // halving_interval)` into the
dictionary built so far (Python dict insertion: later keys overwrite). -/
def halving_step (result : Nat → Option Nat) (block : Nat) : Nat → Option Nat :=
  let halvings := block / halving_interval
  let reward := base_reward / 2 ^ halvings
  fun k => if k = block then some reward else result k

/-- `halving_schedule(blocks)` from `main.py`: fold the dict insertions over
the list of block heights, starting from the empty dict.  Block heights are
natural numbers (`//` and `**` of the source are Nat floor-division and
power on this domain). -/
def halving_schedule (blocks : List Nat) : Nat → Option Nat :=
  blocks.foldl halving_step (fun _ => none)

theorem halving_schedule_foldl (blocks : List Nat) (g : Nat → Option Nat) (k : Nat) :
    blocks.foldl halving_step g k =
      if k ∈ blocks then some (base_reward / 2 ^ (k / halving_interval)) else g k := by
  induction blocks generalizing g with
  | nil => simp
  | cons b bs ih =>
    simp only [List.foldl_cons, ih, List.mem_cons]
    by_cases hb : k ∈ bs
    · simp [hb]
    · by_cases hk : k = b
      · subst hk; simp [hb, halving_step]
      · simp [hb, hk, halving_step]

/-- C1: `halving_schedule` maps exactly the input heights, each height `h`
to `50 * 100000000 / 2 ^ (h / 210000)` with integer division; duplicates
collapse to a single entry (the value depends only on the key, so the last
occurrence's value is the value of every occurrence); and the three
concrete examples hold as full mappings. -/
theorem halving_schedule_spec :
    (∀ (blocks : List Nat) (h : Nat),
        halving_schedule blocks h =
          if h ∈ blocks then some (50 * 100000000 / 2 ^ (h / 210000)) else none) ∧
    (∀ k, halving_schedule [0] k = if k = 0 then some 5000000000 else none) ∧
    (∀ k, halving_schedule [210000] k = if k = 210000 then some 2500000000 else none) ∧
    (∀ k, halving_schedule [420000] k = if k = 420000 then some 1250000000 else none) := by
  have hmain : ∀ (blocks : List Nat) (h : Nat),
      halving_schedule blocks h =
        if h ∈ blocks then some (50 * 100000000 / 2 ^ (h / 210000)) else none := by
    intro blocks h
    exact halving_schedule_foldl blocks (fun _ => none) h
  refine ⟨hmain, ?_, ?_, ?_⟩ <;> intro k
  · rw [hmain]; by_cases hk : k = 0 <;> simp [hk]
  · rw [hmain]; by_cases hk : k = 210000 <;> simp [hk]
  · rw [hmain]; by_cases hk : k = 420000 <;> simp [hk]

/-- A UTXO dictionary as consumed by `find_utxo_with_min_value`: it has a
`value` key (in sats, an integer) and arbitrary further key/value pairs. -/
structure UTXO where
  value : Int
  rest : List (String × Int)
  deriving DecidableEq

/-- One step of Python's `min(valid_utxos, key=lambda x: x['value'])`:
keep the current best unless the next element is strictly smaller. -/
def utxo_min_step (best x : UTXO) : UTXO :=
  if x.value < best.value then x else best

/-- `find_utxo_with_min_value(utxos, target)` from `main.py`: filter to the
UTXOs with `value >= target`; if none survive return the empty dict
(embedded as `none`), otherwise Python's `min` over the survivors, which
scans left to right keeping the first strictly-smaller element. -/
def find_utxo_with_min_value (utxos : List UTXO) (target : Int) : Option UTXO :=
  let valid_utxos := utxos.filter (fun u => decide (target ≤ u.value))
  match valid_utxos with
  | [] => none
  | u :: rest => some (rest.foldl utxo_min_step u)

theorem utxo_min_step_foldl_mem (l : List UTXO) (u : UTXO) :
    l.foldl utxo_min_step u = u ∨ l.foldl utxo_min_step u ∈ l := by
  induction l generalizing u with
  | nil => exact Or.inl rfl
  | cons x xs ih =>
    simp only [List.foldl_cons]
    rcases ih (utxo_min_step u x) with h | h
    · rw [h]; unfold utxo_min_step
      split
      · exact Or.inr (List.mem_cons_self _ _)
      · exact Or.inl rfl
    · exact Or.inr (List.mem_cons_of_mem _ h)

theorem utxo_min_step_foldl_le (l : List UTXO) (u : UTXO) :
    (l.foldl utxo_min_step u).value ≤ u.value ∧
      ∀ v ∈ l, (l.foldl utxo_min_step u).value ≤ v.value := by
  induction l generalizing u with
  | nil => exact ⟨le_refl _, by simp⟩
  | cons x xs ih =>
    simp only [List.foldl_cons]
    obtain ⟨h1, h2⟩ := ih (utxo_min_step u x)
    have hu : (utxo_min_step u x).value ≤ u.value := by
      unfold utxo_min_step; split
      · omega
      · exact le_refl _
    have hx : (utxo_min_step u x).value ≤ x.value := by
      unfold utxo_min_step; split
      · exact le_refl _
      · omega
    refine ⟨le_trans h1 hu, ?_⟩
    intro v hv
    rcases List.mem_cons.mp hv with rfl | hv
    · exact le_trans h1 hx
    · exact h2 v hv

theorem utxo_min_step_foldl_first (l : List UTXO) (u : UTXO) :
    (u :: l).find? (fun v => v.value == (l.foldl utxo_min_step u).value) =
      some (l.foldl utxo_min_step u) := by
  induction l generalizing u with
  | nil => simp
  | cons x xs ih =>
    simp only [List.foldl_cons]
    set r := xs.foldl utxo_min_step (utxo_min_step u x) with hr
    have hih := ih (utxo_min_step u x)
    rw [← hr] at hih
    have h1 := (utxo_min_step_foldl_le xs (utxo_min_step u x)).1
    rw [← hr] at h1
    by_cases hlt : x.value < u.value
    · have hstep : utxo_min_step u x = x := by unfold utxo_min_step; simp [hlt]
      rw [hstep] at hih h1
      rw [List.find?_cons_of_neg]
      · exact hih
      · simp only [beq_iff_eq]
        intro hEq
        omega
    · have hstep : utxo_min_step u x = u := by unfold utxo_min_step; simp [hlt]
      rw [hstep] at hih h1
      by_cases heq : u.value = r.value
      · have huq : r = u := by
          rw [List.find?_cons_of_pos] at hih
          · exact (Option.some.inj hih).symm
          · simp [heq]
        rw [List.find?_cons_of_pos]
        · rw [huq]
        · simp [huq]
      · rw [List.find?_cons_of_neg] at hih
        · rw [List.find?_cons_of_neg, List.find?_cons_of_neg]
          · exact hih
          · simp only [beq_iff_eq]
            intro hEq
            omega
          · simp only [beq_iff_eq]
            exact heq
        · simp only [beq_iff_eq]
          exact heq

/-- C2: `find_utxo_with_min_value` returns `none` (the empty dict) exactly
when no UTXO has `value ≥ target`; otherwise it returns a surviving UTXO of
minimal value, and among the survivors of that value the first in stable
filtering order; and the concrete example returns the UTXO of value 200. -/
theorem find_utxo_with_min_value_spec :
    (∀ (utxos : List UTXO) (target : Int),
      match find_utxo_with_min_value utxos target with
      | none => utxos.filter (fun u => decide (target ≤ u.value)) = []
      | some r =>
          r ∈ utxos.filter (fun u => decide (target ≤ u.value)) ∧
          (∀ v ∈ utxos.filter (fun u => decide (target ≤ u.value)), r.value ≤ v.value) ∧
          (utxos.filter (fun u => decide (target ≤ u.value))).find?
              (fun v => v.value == r.value) = some r) ∧
    find_utxo_with_min_value [⟨100, []⟩, ⟨300, []⟩, ⟨200, []⟩] 150 = some ⟨200, []⟩ := by
  constructor
  · intro utxos target
    unfold find_utxo_with_min_value
    cases hfil : utxos.filter (fun u => decide (target ≤ u.value)) with
    | nil => simp
    | cons u rest =>
      refine ⟨?_, ?_, ?_⟩
      · rcases utxo_min_step_foldl_mem rest u with h | h
        · rw [h]; exact List.mem_cons_self _ _
        · exact List.mem_cons_of_mem _ h
      · intro v hv
        obtain ⟨h1, h2⟩ := utxo_min_step_foldl_le rest u
        rcases List.mem_cons.mp hv with rfl | hv
        · exact h1
        · exact h2 v hv
      · exact utxo_min_step_foldl_first rest u
  · rfl

/-- The `Union[int, float, str]` input domain of `validate_block_height`.
Python floats are embedded as exact rational values (`ℚ`); `float.is_integer()`
is `den = 1` and `int()` on such a float is the numerator. -/
inductive HeightInput where
  | int (n : Int)
  | float (q : ℚ)
  | str (s : String)

/-- The tail of `validate_block_height` after `height_int = int(height)`:
the sign and upper-bound checks of `main.py`. -/
def validate_height_int (height_int : Int) : Bool × String :=
  if height_int < 0 then (false, "Block height cannot be negative")
  else if height_int > 800000 then (false, "Block height seems unrealistic")
  else (true, "Valid block height")

/-- `validate_block_height(height)` from `main.py`: strings are rejected
first; a float that is not integral is rejected; otherwise the value is
converted to an integer and range-checked.  The function is total: the
`except ValueError` branch of the source is unreachable on this domain
(`int()` on an `int` or an integral float never raises `ValueError`). -/
def validate_block_height : HeightInput → Bool × String
  | .str _ => (false, "Block height must be an integer")
  | .float q =>
      if q.den ≠ 1 then (false, "Block height must be an integer")
      else validate_height_int q.num
  | .int n => validate_height_int n

/-- C3: `validate_block_height` is a total function to `(Bool, String)`
(no exception escapes); strings and fractional floats fail with
"Block height must be an integer", and integral inputs are classified by
sign and the 800000 bound; the five concrete examples hold. -/
theorem validate_block_height_spec :
    (∀ s, validate_block_height (.str s) = (false, "Block height must be an integer")) ∧
    (∀ q : ℚ, q.den ≠ 1 →
        validate_block_height (.float q) = (false, "Block height must be an integer")) ∧
    (∀ q : ℚ, q.den = 1 →
        validate_block_height (.float q) =
          if q.num < 0 then (false, "Block height cannot be negative")
          else if q.num > 800000 then (false, "Block height seems unrealistic")
          else (true, "Valid block height")) ∧
    (∀ n : Int,
        validate_block_height (.int n) =
          if n < 0 then (false, "Block height cannot be negative")
          else if n > 800000 then (false, "Block height seems unrealistic")
          else (true, "Valid block height")) ∧
    validate_block_height (.int 800000) = (true, "Valid block height") ∧
    validate_block_height (.int 800001) = (false, "Block height seems unrealistic") ∧
    validate_block_height (.int (-1)) = (false, "Block height cannot be negative") ∧
    validate_block_height (.str "abc") = (false, "Block height must be an integer") ∧
    validate_block_height (.float (100.5 : ℚ)) = (false, "Block height must be an integer") := by
  refine ⟨fun s => rfl, ?_, ?_, fun n => rfl, ?_, ?_, ?_, rfl, ?_⟩
  · intro q hq
    simp [validate_block_height, hq]
  · intro q hq
    simp [validate_block_height, hq, validate_height_int]
  · simp [validate_block_height, validate_height_int]
  · simp [validate_block_height, validate_height_int]
  · simp [validate_block_height, validate_height_int]
  · have hden : (100.5 : ℚ).den = 2 := by norm_num
    simp [validate_block_height, hden]

/-- Witness for C3: the hypotheses of `validate_block_height_spec` discharged
at the concrete inputs `100.5` (denominator 2) and `3` (denominator 1). -/
theorem validate_block_height_spec_witness :
    validate_block_height (.float (100.5 : ℚ)) = (false, "Block height must be an integer") ∧
    validate_block_height (.float (3 : ℚ)) = (true, "Valid block height") := by
  constructor
  · exact validate_block_height_spec.2.1 (100.5 : ℚ) (by norm_num)
  · have h := validate_block_height_spec.2.2.1 (3 : ℚ) (by norm_num)
    have hnum : (3 : ℚ).num = 3 := by norm_num
    rw [hnum] at h
    simpa using h

/-- `tx_priority(size_bytes, fee_btc)` from `main.py`.  Python's
`fee_btc / size_bytes` float division is embedded as exact division in `ℚ`;
`size_bytes = 0` raises an unhandled `ZeroDivisionError`, embedded as
`none` (the function has no handler, so the fault propagates). -/
def tx_priority (size_bytes : Int) (fee_btc : ℚ) : Option String :=
  if size_bytes = 0 then none
  else if fee_btc / (size_bytes : ℚ) ≥ 0.00005 then some "high"
  else if fee_btc / (size_bytes : ℚ) ≥ 0.00001 then some "medium"
  else some "low"

/-- C4: for nonzero `size_bytes`, `tx_priority` classifies the fee rate
`fee_btc / size_bytes`: at least 0.00005 is "high", in [0.00001, 0.00005)
is "medium", below 0.00001 is "low". -/
theorem tx_priority_spec (size_bytes : Int) (fee_btc : ℚ) (h : size_bytes ≠ 0) :
    (fee_btc / (size_bytes : ℚ) ≥ 0.00005 → tx_priority size_bytes fee_btc = some "high") ∧
    (0.00001 ≤ fee_btc / (size_bytes : ℚ) ∧ fee_btc / (size_bytes : ℚ) < 0.00005 →
        tx_priority size_bytes fee_btc = some "medium") ∧
    (fee_btc / (size_bytes : ℚ) < 0.00001 → tx_priority size_bytes fee_btc = some "low") := by
  unfold tx_priority
  rw [if_neg h]
  refine ⟨?_, ?_, ?_⟩
  · intro hrate
    simp only [ge_iff_le]
    rw [if_pos hrate]
  · rintro ⟨h1, h2⟩
    simp only [ge_iff_le]
    rw [if_neg (by linarith), if_pos h1]
  · intro hrate
    simp only [ge_iff_le]
    rw [if_neg (by linarith), if_neg (by linarith)]

/-- Witness for C4: `tx_priority_spec` applied at size 1 byte and fee
0.0001 BTC, whose fee rate 0.0001 ≥ 0.00005 gives "high". -/
theorem tx_priority_spec_witness :
    (1 : Int) ≠ 0 ∧ tx_priority 1 (0.0001 : ℚ) = some "high" :=
  ⟨by norm_num, (tx_priority_spec 1 (0.0001 : ℚ) (by norm_num)).1 (by norm_num)⟩

/-- Counterexample for C5: at size 1000 bytes and fee 0.00006 BTC the fee
rate is 0.00000006, far below both thresholds, so the code returns "low",
not "high" (and likewise not "medium"/"low" as the claim's triple states). -/
theorem tx_priority_examples_counterexample :
    ¬ (tx_priority 1000 (0.00006 : ℚ) = some "high" ∧
       tx_priority 1000 (0.00002 : ℚ) = some "medium" ∧
       tx_priority 1000 (0.000001 : ℚ) = some "low") := by
  intro hclaim
  have h1 := hclaim.1
  unfold tx_priority at h1
  rw [if_neg (by norm_num : ¬ (1000 : Int) = 0)] at h1
  rw [if_neg (by norm_num)] at h1
  rw [if_neg (by norm_num)] at h1
  exact absurd (Option.some.inj h1) (by decide)

/-- C5 amended: at size 1000 the fee rates 0.00006/1000, 0.00002/1000 and
0.000001/1000 are all below 0.00001, so all three calls return "low". -/
theorem tx_priority_examples_amended :
    tx_priority 1000 (0.00006 : ℚ) = some "low" ∧
    tx_priority 1000 (0.00002 : ℚ) = some "low" ∧
    tx_priority 1000 (0.000001 : ℚ) = some "low" := by
  refine ⟨?_, ?_, ?_⟩ <;>
    (unfold tx_priority
     rw [if_neg (by norm_num : ¬ (1000 : Int) = 0), if_neg (by norm_num), if_neg (by norm_num)])

/-- C9: `tx_priority` fails (the division fault propagates, embedded as
`none`) exactly when `size_bytes = 0`; for every other size it returns a
priority string. -/
theorem tx_priority_zero_division :
    ∀ (size_bytes : Int) (fee_btc : ℚ),
      tx_priority size_bytes fee_btc = none ↔ size_bytes = 0 := by
  intro s f
  constructor
  · intro hnone
    by_contra h
    unfold tx_priority at hnone
    rw [if_neg h] at hnone
    split at hnone
    · exact Option.noConfusion hnone
    · split at hnone <;> exact Option.noConfusion hnone
  · intro h
    simp [tx_priority, h]

/-- Python `int()` applied to a rational numeric value: truncation toward
zero, i.e. the truncating division of numerator by denominator. -/
def py_int_of_rat (q : ℚ) : Int := q.num.tdiv q.den

/-- `calculate_sats(btc)` from `main.py`: `int(btc * BTC_TO_SATS)`, the
product taken as an exact numeric value in `ℚ`. -/
def calculate_sats (btc : ℚ) : Int := py_int_of_rat (btc * (BTC_TO_SATS : ℚ))

/-- C7: for every BTC amount `x ≥ 0`, `calculate_sats x` is the floor of
`x * 100000000`: truncation toward zero coincides with the floor on
non-negative values. -/
theorem calculate_sats_spec (btc : ℚ) (h : 0 ≤ btc) :
    calculate_sats btc = ⌊btc * 100000000⌋ := by
  unfold calculate_sats py_int_of_rat
  have hsats : ((BTC_TO_SATS : Nat) : ℚ) = 100000000 := by norm_num [BTC_TO_SATS]
  rw [hsats]
  have hq : (0 : ℚ) ≤ btc * 100000000 := by positivity
  have hnum : 0 ≤ (btc * (100000000 : ℚ)).num := Rat.num_nonneg.mpr hq
  rw [Int.tdiv_eq_ediv hnum (Int.natCast_nonneg _)]
  exact Rat.floor_def.symm

/-- Witness for C7: `calculate_sats_spec` applied at the amount 1.5 BTC,
which is 150000000 sats. -/
theorem calculate_sats_spec_witness :
    (0 : ℚ) ≤ 1.5 ∧ calculate_sats (1.5 : ℚ) = 150000000 := by
  refine ⟨by norm_num, ?_⟩
  rw [calculate_sats_spec (1.5 : ℚ) (by norm_num)]
  norm_num

/-- The loop of `find_high_fee`, carrying the running `enumerate` index. -/
def find_high_fee_go (i : Nat) : List ℚ → Option (Nat × ℚ)
  | [] => none
  | fee :: rest =>
      if fee > 0.005 then some (i, fee) else find_high_fee_go (i + 1) rest

/-- `find_high_fee(fee_list)` from `main.py`: scan the fees in order with
their `enumerate` index and return the first `(index, fee)` with
`fee > 0.005`, or `None` (embedded `none`) when the loop falls through. -/
def find_high_fee (fee_list : List ℚ) : Option (Nat × ℚ) :=
  find_high_fee_go 0 fee_list

theorem find_high_fee_go_eq_none (l : List ℚ) (i : Nat)
    (h : find_high_fee_go i l = none) : ∀ fee ∈ l, fee ≤ 0.005 := by
  induction l generalizing i with
  | nil => simp
  | cons fee rest ih =>
    rw [find_high_fee_go] at h
    by_cases hfee : fee > 0.005
    · rw [if_pos hfee] at h
      exact Option.noConfusion h
    · rw [if_neg hfee] at h
      intro g hg
      rcases List.mem_cons.mp hg with rfl | hg
      · exact le_of_not_lt hfee
      · exact ih (i + 1) h g hg

theorem find_high_fee_go_eq_some (l : List ℚ) (i j : Nat) (fee : ℚ)
    (h : find_high_fee_go i l = some (j, fee)) :
    i ≤ j ∧ l.get? (j - i) = some fee ∧ 0.005 < fee ∧
      ∀ k < j - i, ∀ g, l.get? k = some g → g ≤ 0.005 := by
  induction l generalizing i with
  | nil => exact Option.noConfusion h
  | cons f rest ih =>
    rw [find_high_fee_go] at h
    by_cases hf : f > 0.005
    · rw [if_pos hf] at h
      obtain ⟨rfl, rfl⟩ : i = j ∧ f = fee := by
        have := Option.some.inj h
        exact ⟨congrArg Prod.fst this, congrArg Prod.snd this⟩
      refine ⟨le_refl _, ?_, hf, ?_⟩
      · simp
      · intro k hk
        omega
    · rw [if_neg hf] at h
      obtain ⟨hij, hget, hfee, hbelow⟩ := ih (i + 1) h
      have hji : j - i = (j - (i + 1)) + 1 := by omega
      refine ⟨by omega, ?_, hfee, ?_⟩
      · rw [hji]
        simpa using hget
      · intro k hk g hg
        match k with
        | 0 =>
          simp only [List.get?] at hg
          rw [Option.some.inj hg] at hf
          exact le_of_not_lt hf
        | k' + 1 =>
          have hk' : k' < j - (i + 1) := by omega
          exact hbelow k' hk' g (by simpa using hg)

/-- C8: `find_high_fee` returns the first `(index, fee)` pair whose fee is
strictly greater than 0.005 — the returned index holds that fee, and every
earlier index holds a fee at most 0.005 — and `none` when no fee exceeds
0.005; the two concrete examples hold. -/
theorem find_high_fee_spec :
    (∀ fee_list : List ℚ,
      match find_high_fee fee_list with
      | none => ∀ fee ∈ fee_list, fee ≤ 0.005
      | some (i, fee) =>
          fee_list.get? i = some fee ∧ 0.005 < fee ∧
            ∀ j < i, ∀ g, fee_list.get? j = some g → g ≤ 0.005) ∧
    find_high_fee [0.001, 0.006, 0.01] = some (1, 0.006) ∧
    find_high_fee [0.001] = none := by
  refine ⟨?_, ?_, ?_⟩
  · intro fee_list
    cases hgo : find_high_fee fee_list with
    | none => exact find_high_fee_go_eq_none fee_list 0 hgo
    | some p =>
      obtain ⟨i, fee⟩ := p
      obtain ⟨-, hget, hfee, hbelow⟩ := find_high_fee_go_eq_some fee_list 0 i fee hgo
      simp only [Nat.sub_zero] at hget hbelow
      exact ⟨hget, hfee, hbelow⟩
  · show find_high_fee_go 0 _ = _
    rw [find_high_fee_go, if_neg (by norm_num), find_high_fee_go, if_pos (by norm_num)]
  · show find_high_fee_go 0 _ = _
    rw [find_high_fee_go, if_neg (by norm_num), find_high_fee_go]

/-- The population `string.ascii_lowercase + string.digits` that
`generate_address` samples from (36 characters). -/
def lowercase_and_digits : List Char :=
  ['a', 'b', 'c', 'd', 'e', 'f', 'g', 'h', 'i', 'j', 'k', 'l', 'm',
   'n', 'o', 'p', 'q', 'r', 's', 't', 'u', 'v', 'w', 'x', 'y', 'z',
   '0', '1', '2', '3', '4', '5', '6', '7', '8', '9']

theorem lowercase_and_digits_length : lowercase_and_digits.length = 36 := rfl

/-- `generate_address(prefix)` from `main.py` (strings as `List Char`).
`32 - len(prefix)` is Python integer subtraction, which can go negative;
`random.choices(..., k)` with a non-positive `k` returns the empty list,
hence the clamp `Int.toNat`.  The oracle `rand` supplies, for each suffix
position, the index into the 36-character population drawn by
`random.choices`. -/
def generate_address (pfx : List Char) (rand : Nat → Fin 36) : List Char :=
  let suffix_length := ((32 : Int) - pfx.length).toNat
  let suffix := (List.range suffix_length).map
    (fun i => lowercase_and_digits.get (Fin.cast lowercase_and_digits_length.symm (rand i)))
  pfx ++ suffix

/-- C6: for every prefix and every outcome of the random source, the result
is the prefix followed by a suffix drawn from lowercase letters and digits;
the result has length exactly 32 whenever the prefix fits (in particular
for the default prefix "bc1q"), and a prefix longer than 32 characters is
returned unchanged with an empty suffix. -/
theorem generate_address_spec :
    (∀ (pfx : List Char) (rand : Nat → Fin 36),
        ∃ suffix : List Char, generate_address pfx rand = pfx ++ suffix ∧
          ∀ c ∈ suffix, c ∈ lowercase_and_digits) ∧
    (∀ (pfx : List Char) (rand : Nat → Fin 36),
        pfx.length ≤ 32 → (generate_address pfx rand).length = 32) ∧
    (∀ (pfx : List Char) (rand : Nat → Fin 36),
        32 < pfx.length → generate_address pfx rand = pfx) ∧
    (∀ rand : Nat → Fin 36, (generate_address ['b', 'c', '1', 'q'] rand).length = 32) := by
  have hlen : ∀ (pfx : List Char) (rand : Nat → Fin 36),
      (generate_address pfx rand).length = pfx.length + ((32 : Int) - pfx.length).toNat := by
    intro pfx rand
    unfold generate_address
    simp
  refine ⟨?_, ?_, ?_, ?_⟩
  · intro pfx rand
    refine ⟨(List.range ((32 : Int) - pfx.length).toNat).map
      (fun i => lowercase_and_digits.get (Fin.cast lowercase_and_digits_length.symm (rand i))),
      rfl, ?_⟩
    intro c hc
    obtain ⟨i, -, rfl⟩ := List.mem_map.mp hc
    exact List.get_mem _ _ _
  · intro pfx rand hfit
    rw [hlen]
    omega
  · intro pfx rand hlong
    unfold generate_address
    have hz : ((32 : Int) - pfx.length).toNat = 0 := by omega
    rw [hz]
    simp
  · intro rand
    rw [hlen]
    rfl

/-- Witness for C6: `generate_address_spec` instantiated on the constant
randomness oracle that always draws index 0 ('a'): the default prefix
"bc1q" gives a 32-character result, and a 33-character prefix is returned
unchanged. -/
theorem generate_address_spec_witness :
    (['b', 'c', '1', 'q'] : List Char).length ≤ 32 ∧
    (generate_address ['b', 'c', '1', 'q'] (fun _ => ⟨0, by norm_num⟩)).length = 32 ∧
    32 < (List.replicate 33 'a').length ∧
    generate_address (List.replicate 33 'a') (fun _ => ⟨0, by norm_num⟩) =
      List.replicate 33 'a' := by
  refine ⟨by decide, ?_, by decide, ?_⟩
  · exact generate_address_spec.2.1 _ _ (by decide)
  · exact generate_address_spec.2.2.1 _ _ (by decide)

/-- The whitespace characters removed by Python's `str.strip()`
(ASCII: space, tab, newline, carriage return, vertical tab, form feed). -/
def py_isspace (c : Char) : Bool :=
  c == ' ' || c == '\t' || c == '\n' || c == '\r' || c == '\x0b' || c == '\x0c'

/-- `str.strip()` on a list of characters: drop whitespace from the front,
then (via reversal) from the back. -/
def py_strip (l : List Char) : List Char :=
  ((l.dropWhile py_isspace).reverse.dropWhile py_isspace).reverse

/-- `str.lower()` on one character (ASCII: code points 65..90 shift by 32
to 97..122, everything else is unchanged). -/
def py_lower_char (c : Char) : Char :=
  if 65 ≤ c.toNat ∧ c.toNat ≤ 90 then Char.ofNat (c.toNat + 32) else c

/-- `normalize_address(address)` from `main.py`:
`address.strip().lower()` (strings as `List Char`). -/
def normalize_address (address : List Char) : List Char :=
  (py_strip address).map py_lower_char

theorem char_toNat_ofNat_of_lt (n : Nat) (h : n < 55296) : (Char.ofNat n).toNat = n := by
  unfold Char.ofNat
  rw [dif_pos (Or.inl h)]
  rfl

theorem py_lower_char_toNat_of_upper (c : Char) (h1 : 65 ≤ c.toNat) (h2 : c.toNat ≤ 90) :
    (py_lower_char c).toNat = c.toNat + 32 := by
  unfold py_lower_char
  rw [if_pos ⟨h1, h2⟩]
  exact char_toNat_ofNat_of_lt _ (by omega)

theorem py_lower_char_of_not_upper (c : Char) (h : ¬(65 ≤ c.toNat ∧ c.toNat ≤ 90)) :
    py_lower_char c = c := by
  unfold py_lower_char
  rw [if_neg h]

theorem py_lower_char_idem (c : Char) :
    py_lower_char (py_lower_char c) = py_lower_char c := by
  by_cases h : 65 ≤ c.toNat ∧ c.toNat ≤ 90
  · have ht := py_lower_char_toNat_of_upper c h.1 h.2
    apply py_lower_char_of_not_upper
    omega
  · rw [py_lower_char_of_not_upper c h, py_lower_char_of_not_upper c h]

theorem py_isspace_toNat (c : Char) (h : py_isspace c = true) :
    c.toNat = 32 ∨ c.toNat = 9 ∨ c.toNat = 10 ∨ c.toNat = 13 ∨
      c.toNat = 11 ∨ c.toNat = 12 := by
  unfold py_isspace at h
  simp only [Bool.or_eq_true, beq_iff_eq] at h
  rcases h with ((((rfl | rfl) | rfl) | rfl) | rfl) | rfl <;> decide

theorem py_isspace_py_lower_char (c : Char) :
    py_isspace (py_lower_char c) = py_isspace c := by
  by_cases h : 65 ≤ c.toNat ∧ c.toNat ≤ 90
  · have ht := py_lower_char_toNat_of_upper c h.1 h.2
    have h1 : py_isspace c = false := by
      cases hws : py_isspace c with
      | false => rfl
      | true => have := py_isspace_toNat c hws; omega
    have h2 : py_isspace (py_lower_char c) = false := by
      cases hws : py_isspace (py_lower_char c) with
      | false => rfl
      | true => have := py_isspace_toNat _ hws; omega
    rw [h1, h2]
  · rw [py_lower_char_of_not_upper c h]

theorem dropWhile_map_comm {f : Char → Char} {p : Char → Bool}
    (hf : ∀ c, p (f c) = p c) (l : List Char) :
    (l.map f).dropWhile p = (l.dropWhile p).map f := by
  induction l with
  | nil => rfl
  | cons x xs ih =>
    rw [List.map_cons, List.dropWhile_cons, List.dropWhile_cons, hf]
    cases hpx : p x with
    | true => simpa using ih
    | false => simp

theorem dropWhile_dropWhile {α : Type} (p : α → Bool) (l : List α) :
    (l.dropWhile p).dropWhile p = l.dropWhile p := by
  induction l with
  | nil => rfl
  | cons x xs ih =>
    rw [List.dropWhile_cons]
    by_cases hpx : p x = true
    · rw [if_pos hpx]
      exact ih
    · rw [if_neg hpx]
      rw [List.dropWhile_cons, if_neg hpx]

theorem length_dropWhile_le {α : Type} (p : α → Bool) (l : List α) :
    (l.dropWhile p).length ≤ l.length := by
  induction l with
  | nil => exact le_refl _
  | cons x xs ih =>
    rw [List.dropWhile_cons]
    by_cases hpx : p x = true
    · rw [if_pos hpx]
      exact le_trans ih (by simp)
    · rw [if_neg hpx]

theorem dropWhile_eq_self_of_append {α : Type} (p : α → Bool) (b s : List α)
    (h : (b ++ s).dropWhile p = b ++ s) : b.dropWhile p = b := by
  cases b with
  | nil => rfl
  | cons x xs =>
    rw [List.cons_append, List.dropWhile_cons] at h
    by_cases hpx : p x = true
    · rw [if_pos hpx] at h
      have hle := length_dropWhile_le p (xs ++ s)
      rw [h] at hle
      simp at hle
    · rw [List.dropWhile_cons, if_neg hpx]

theorem py_strip_map_lower (l : List Char) :
    py_strip (l.map py_lower_char) = (py_strip l).map py_lower_char := by
  unfold py_strip
  rw [dropWhile_map_comm py_isspace_py_lower_char, ← List.map_reverse,
    dropWhile_map_comm py_isspace_py_lower_char, ← List.map_reverse]

theorem py_strip_strip (l : List Char) : py_strip (py_strip l) = py_strip l := by
  have hAdrop : (l.dropWhile py_isspace).dropWhile py_isspace = l.dropWhile py_isspace :=
    dropWhile_dropWhile _ _
  set A := l.dropWhile py_isspace with hA
  set B := (A.reverse.dropWhile py_isspace).reverse with hB
  have h0 : A.reverse.takeWhile py_isspace ++ A.reverse.dropWhile py_isspace = A.reverse :=
    List.takeWhile_append_dropWhile _ _
  have hsplit : A = B ++ (A.reverse.takeWhile py_isspace).reverse := by
    have h1 := congrArg List.reverse h0
    rw [List.reverse_append, List.reverse_reverse] at h1
    rw [hB]
    exact h1.symm
  have hBdrop : B.dropWhile py_isspace = B := by
    apply dropWhile_eq_self_of_append py_isspace B ((A.reverse.takeWhile py_isspace).reverse)
    rw [← hsplit]
    exact hAdrop
  have hBrev : B.reverse.dropWhile py_isspace = B.reverse := by
    rw [hB, List.reverse_reverse]
    exact dropWhile_dropWhile _ _
  show ((B.dropWhile py_isspace).reverse.dropWhile py_isspace).reverse = B
  rw [hBdrop, hBrev, List.reverse_reverse]

/-- C10: `normalize_address` is idempotent — stripping and lower-casing an
already normalized address returns it unchanged: lower-casing neither
introduces nor removes whitespace at the ends, and is itself idempotent. -/
theorem normalize_address_idem (a : List Char) :
    normalize_address (normalize_address a) = normalize_address a := by
  unfold normalize_address
  rw [py_strip_map_lower, py_strip_strip, List.map_map]
  exact List.map_congr_left (fun c _ => py_lower_char_idem c)

/-- Witness for C1: `halving_schedule_spec` evaluated at the concrete
input `[0]` and key `0`. -/
theorem halving_schedule_spec_witness :
    halving_schedule [0] 0 = some 5000000000 := by
  have h := halving_schedule_spec.2.1 0
  simpa using h

/-- Witness for C2: `find_utxo_with_min_value_spec` at the concrete
example input. -/
theorem find_utxo_with_min_value_spec_witness :
    find_utxo_with_min_value [⟨100, []⟩, ⟨300, []⟩, ⟨200, []⟩] 150 = some ⟨200, []⟩ :=
  find_utxo_with_min_value_spec.2

/-- Witness for C8: `find_high_fee_spec` at the concrete example input. -/
theorem find_high_fee_spec_witness :
    find_high_fee [0.001, 0.006, 0.01] = some (1, 0.006) :=
  find_high_fee_spec.2.1

/-- Witness for C9: `tx_priority_zero_division` at size 0 — the division
fault case. -/
theorem tx_priority_zero_division_witness :
    tx_priority 0 (0.001 : ℚ) = none :=
  (tx_priority_zero_division 0 (0.001 : ℚ)).mpr rfl

/-- Witness for C10: `normalize_address_idem` at the concrete address
`" A"`. -/
theorem normalize_address_idem_witness :
    normalize_address (normalize_address [' ', 'A']) = normalize_address [' ', 'A'] :=
  normalize_address_idem [' ', 'A']
